import Mathlib

/-!
Verification of the out-of-core squaring prototype (`src/prototype.py`).

The program stores a non-negative integer as a little-endian sequence of
fixed-width blocks (1 byte each) in a file and squares it by schoolbook
multiplication restricted to the upper triangle, doubling off-diagonal
products and propagating carries, while counting block reads and writes.

Embedding choices:
- a file is a `List Nat` of blocks (index 0 = least significant);
- the two open files of `square` plus the global `reads`/`writes`
  counters form the state `St`, threaded explicitly through the loops;
- Python's `int.to_bytes`, which raises `OverflowError` for a value that
  does not fit in one byte, makes `write_block` return `Option`;
- all loops of `square` are translated as recursive functions on `St`.
-/

/-- `CHUNK_SIZE = 1`: one byte per block (src/prototype.py line 3). -/
def CHUNK_SIZE : Nat := 1

/-- `BLOCK_MASK = (1 << (CHUNK_SIZE * 8)) - 1` (src/prototype.py line 4). -/
def BLOCK_MASK : Nat := (1 <<< (CHUNK_SIZE * 8)) - 1

/-- Number of bits per block, `CHUNK_SIZE * 8`. -/
def WBITS : Nat := CHUNK_SIZE * 8

/-- Value produced by reading block `pos` of a file: the stored byte, or 0
past the end (`int.from_bytes(block, "little") if block else 0`,
src/prototype.py line 12). -/
def readVal (f : List Nat) (pos : Nat) : Nat :=
  match f[pos]? with
  | some b => b
  | none => 0

/-- Reading at or past the end of the file yields 0. -/
theorem readVal_of_len_le {f : List Nat} {pos : Nat} (h : f.length ≤ pos) :
    readVal f pos = 0 := by
  simp [readVal, List.getElem?_eq_none h]

/-- Effect on the file of writing value `v` at block index `pos`:
positions below the current length are overwritten in place; writing at or
past the end extends the file, zero-filling any gap (the byte-level
semantics of `file.seek(pos); file.write(...)`). -/
def setPad (f : List Nat) (pos v : Nat) : List Nat :=
  if pos < f.length then f.set pos v
  else f ++ List.replicate (pos - f.length) 0 ++ [v]

/-- The mask keeps the low `8` bits: `x &&& BLOCK_MASK = x % 256`. -/
theorem and_BLOCK_MASK (x : Nat) : x &&& BLOCK_MASK = x % 256 := by
  have h : BLOCK_MASK = 2 ^ 8 - 1 := rfl
  rw [h, Nat.and_pow_two_sub_one_eq_mod]

/-- The block shift is division by `256`: `x >>> (CHUNK_SIZE * 8) = x / 256`. -/
theorem shiftRight_block (x : Nat) : x >>> (CHUNK_SIZE * 8) = x / 256 := by
  rw [Nat.shiftRight_eq_div_pow]
  norm_num [CHUNK_SIZE]

theorem setPad_length (f : List Nat) (p v : Nat) :
    (setPad f p v).length = max f.length (p + 1) := by
  unfold setPad
  by_cases h : p < f.length
  · rw [if_pos h]
    simp
    omega
  · rw [if_neg h]
    simp
    omega

/-- `read_block(file, pos)` (src/prototype.py lines 6-12): returns the
block value, the file (unchanged: reading does not modify the medium) and
the incremented global read counter. -/
def read_block (f : List Nat) (pos : Nat) (reads : Nat) : Nat × List Nat × Nat :=
  (readVal f pos, f, reads + 1)

/-- `write_block(file, pos, value)` (src/prototype.py lines 14-19): the
counter is incremented first; then `value.to_bytes(CHUNK_SIZE, "little")`
succeeds only for `value ≤ BLOCK_MASK` (otherwise Python raises
`OverflowError`), so the new file is an `Option`. -/
def write_block (f : List Nat) (pos value : Nat) (writes : Nat) :
    Option (List Nat) × Nat :=
  ((if value ≤ BLOCK_MASK then some (setPad f pos value) else none), writes + 1)

/-- `get_file_size(file)` (src/prototype.py lines 21-24): number of
`CHUNK_SIZE` blocks in the file. -/
def get_file_size (f : List Nat) : Nat := f.length

/-- State of one `square` call: the operand file `inf` (opened `"rb"`),
the result file `outf` (opened `"wb+"`, hence initially empty), and the
global `reads`/`writes` counters. -/
structure St where
  inf : List Nat
  outf : List Nat
  reads : Nat
  writes : Nat

/-- Read a block of the operand file through `read_block`. -/
def rdIn (s : St) (pos : Nat) : Nat × St :=
  let r := read_block s.inf pos s.reads
  (r.1, { s with inf := r.2.1, reads := r.2.2 })

/-- Read a block of the result file through `read_block`. -/
def rdOut (s : St) (pos : Nat) : Nat × St :=
  let r := read_block s.outf pos s.reads
  (r.1, { s with outf := r.2.1, reads := r.2.2 })

/-- Write an (already masked) block to the result file: the success path
of `write_block`, bumping the write counter. -/
def wrOut (s : St) (pos v : Nat) : St :=
  { s with outf := setPad s.outf pos v, writes := s.writes + 1 }

@[simp] theorem rdIn_fst (s : St) (p : Nat) : (rdIn s p).1 = readVal s.inf p := rfl

@[simp] theorem rdIn_inf (s : St) (p : Nat) : (rdIn s p).2.inf = s.inf := rfl

@[simp] theorem rdIn_outf (s : St) (p : Nat) : (rdIn s p).2.outf = s.outf := rfl

@[simp] theorem rdIn_reads (s : St) (p : Nat) : (rdIn s p).2.reads = s.reads + 1 := rfl

@[simp] theorem rdIn_writes (s : St) (p : Nat) : (rdIn s p).2.writes = s.writes := rfl

@[simp] theorem rdOut_fst (s : St) (p : Nat) : (rdOut s p).1 = readVal s.outf p := rfl

@[simp] theorem rdOut_inf (s : St) (p : Nat) : (rdOut s p).2.inf = s.inf := rfl

@[simp] theorem rdOut_outf (s : St) (p : Nat) : (rdOut s p).2.outf = s.outf := rfl

@[simp] theorem rdOut_reads (s : St) (p : Nat) : (rdOut s p).2.reads = s.reads + 1 := rfl

@[simp] theorem rdOut_writes (s : St) (p : Nat) : (rdOut s p).2.writes = s.writes := rfl

@[simp] theorem wrOut_inf (s : St) (p v : Nat) : (wrOut s p v).inf = s.inf := rfl

@[simp] theorem wrOut_outf (s : St) (p v : Nat) : (wrOut s p v).outf = setPad s.outf p v := rfl

@[simp] theorem wrOut_reads (s : St) (p v : Nat) : (wrOut s p v).reads = s.reads := rfl

@[simp] theorem wrOut_writes (s : St) (p v : Nat) : (wrOut s p v).writes = s.writes + 1 := rfl

/-- One iteration of the carry-propagation loop of `square`
(src/prototype.py lines 55-60): read the existing block at `k`, add the
carry, store the low byte; the second component is the next carry. -/
def carryBody (s : St) (k carry : Nat) : St × Nat :=
  let r := rdOut s k
  let new_value := r.1 + carry
  (wrOut r.2 k (new_value &&& BLOCK_MASK), new_value >>> (CHUNK_SIZE * 8))

theorem carryBody_inf (s : St) (k c : Nat) : (carryBody s k c).1.inf = s.inf := rfl

theorem carryBody_outf (s : St) (k c : Nat) :
    (carryBody s k c).1.outf = setPad s.outf k ((readVal s.outf k + c) % 256) := by
  simp only [carryBody, and_BLOCK_MASK]
  rfl

theorem carryBody_reads (s : St) (k c : Nat) : (carryBody s k c).1.reads = s.reads + 1 := rfl

theorem carryBody_writes (s : St) (k c : Nat) : (carryBody s k c).1.writes = s.writes + 1 := rfl

theorem carryBody_carry (s : St) (k c : Nat) :
    (carryBody s k c).2 = (readVal s.outf k + c) / 256 := by
  simp only [carryBody, shiftRight_block]
  rfl

/-- The carry-propagation loop of `square` (src/prototype.py lines 53-60):
`while carry > 0`, run `carryBody` and move to `k+1`. Termination: while
`k` is inside the result file one step shrinks `length - k` and the file
does not grow; once past the end the existing block is 0 so the carry is
divided by 256 each step. -/
def carryLoop (s : St) (k carry : Nat) : St :=
  if carry = 0 then s
  else carryLoop (carryBody s k carry).1 (k + 1) (carryBody s k carry).2
termination_by (s.outf.length - k, carry)
decreasing_by
  rw [carryBody_outf, carryBody_carry] at *
  by_cases hk : k < s.outf.length
  · apply Prod.Lex.left
    rw [setPad_length]
    omega
  · have hlen : s.outf.length ≤ k := Nat.le_of_not_lt hk
    have hread : readVal s.outf k = 0 := readVal_of_len_le hlen
    have h1 : (setPad s.outf k ((readVal s.outf k + carry) % 256)).length - (k + 1) = 0 := by
      rw [setPad_length]
      omega
    have h2 : s.outf.length - k = 0 := by omega
    rw [h1, h2, hread, Nat.zero_add]
    apply Prod.Lex.right
    exact Nat.div_lt_self (Nat.pos_of_ne_zero (by assumption)) (by norm_num)

/-- One iteration of the inner loop of `square` (src/prototype.py lines
36-50): fetch the operand block `j` (doubled) unless on the diagonal, read
the existing partial value at result slot `i + j`, accumulate with the
product and carry, store the low byte. Second component: the next carry. -/
def innerBody (i block_i j carry : Nat) (s : St) : St × Nat :=
  let p := if i ≠ j then
      let r := rdIn s j
      (2 * r.1, r.2)
    else (block_i, s)
  let e := rdOut p.2 (i + j)
  let block_prod := block_i * p.1 + carry + e.1
  (wrOut e.2 (i + j) (block_prod &&& BLOCK_MASK), block_prod >>> (CHUNK_SIZE * 8))

/-- The inner loop of `square` (src/prototype.py lines 35-50): iterate
`innerBody` for `j` up to `size - 1`. Returns the state and the carry left
for the tail carry-propagation loop. -/
def innerLoop (i size block_i j carry : Nat) (s : St) : St × Nat :=
  if j < size then
    innerLoop i size block_i (j + 1) (innerBody i block_i j carry s).2
      (innerBody i block_i j carry s).1
  else (s, carry)
termination_by size - j
decreasing_by omega

/-- One iteration of the outer loop of `square` (src/prototype.py lines
31-60): read `block_i` once, run the inner loop from `j = i` with carry 0,
then propagate the remaining carry starting at slot `i + size`. -/
def outerBody (size i : Nat) (s : St) : St :=
  let b := rdIn s i
  let r := innerLoop i size b.1 i 0 b.2
  carryLoop r.1 (i + size) r.2

/-- The outer loop of `square` (src/prototype.py lines 31-60). -/
def outerLoop (size i : Nat) (s : St) : St :=
  if i < size then outerLoop size (i + 1) (outerBody size i s) else s
termination_by size - i
decreasing_by omega

/-- `square(input, output)` (src/prototype.py lines 26-60): the operand is
the input file, the result file starts empty (`"wb+"` truncates), and the
counters are taken from zero (a freshly reset `IOStatsCollector`). -/
def square (f : List Nat) : St :=
  outerLoop (get_file_size f) 0 { inf := f, outf := [], reads := 0, writes := 0 }

/-- Index-driven accumulation of `file_to_num` (src/prototype.py lines
71-72): `res += read_block(f, i) << (CHUNK_SIZE * 8 * i)` for `i` below the
file size. Only the computed value is modelled; the read-counter traffic of
the codec plays no role in any claim. -/
def file_to_num_loop (f : List Nat) (i : Nat) : Nat :=
  if i < f.length then (readVal f i <<< (CHUNK_SIZE * 8 * i)) + file_to_num_loop f (i + 1)
  else 0
termination_by f.length - i
decreasing_by omega

/-- `file_to_num(filename)` (src/prototype.py lines 66-73): decode the
little-endian block file back to an integer. -/
def file_to_num (f : List Nat) : Nat := file_to_num_loop f 0

/-- `num_to_file(n, filename)` (src/prototype.py lines 75-80): while the
number is nonzero, append its low byte and shift right by one block. -/
def num_to_file (n : Nat) : List Nat :=
  if n = 0 then []
  else (n &&& BLOCK_MASK) :: num_to_file (n >>> (CHUNK_SIZE * 8))
termination_by n
decreasing_by
  simp only [Nat.shiftRight_eq_div_pow]
  exact Nat.div_lt_self (Nat.pos_of_ne_zero (by assumption)) (by norm_num [CHUNK_SIZE])

/-- Little-endian value of a block list: `decodeL (b :: r) = b + 256 * decodeL r`.
This is the semantic anchor every decode claim is phrased against. -/
def decodeL : List Nat → Nat
  | [] => 0
  | b :: r => b + 256 * decodeL r

theorem decodeL_nil : decodeL [] = 0 := rfl

theorem decodeL_cons (b : Nat) (r : List Nat) : decodeL (b :: r) = b + 256 * decodeL r := rfl

theorem readVal_nil (p : Nat) : readVal [] p = 0 := by
  simp [readVal]

theorem readVal_cons_zero (b : Nat) (r : List Nat) : readVal (b :: r) 0 = b := by
  simp [readVal]

theorem readVal_cons_succ (b : Nat) (r : List Nat) (p : Nat) :
    readVal (b :: r) (p + 1) = readVal r p := by
  simp [readVal]

/-- A single block never exceeds the whole decoded value. -/
theorem readVal_mul_le_decodeL (f : List Nat) (p : Nat) :
    readVal f p * 256 ^ p ≤ decodeL f := by
  induction f generalizing p with
  | nil => simp [readVal_nil, decodeL_nil]
  | cons b r ih =>
    cases p with
    | zero => simp [readVal_cons_zero, decodeL_cons]
    | succ p =>
      rw [readVal_cons_succ, decodeL_cons, pow_succ]
      calc readVal r p * (256 ^ p * 256) = 256 * (readVal r p * 256 ^ p) := by ring
        _ ≤ 256 * decodeL r := by
            exact Nat.mul_le_mul_left 256 (ih p)
        _ ≤ b + 256 * decodeL r := Nat.le_add_left _ _

theorem setPad_cons_succ (b : Nat) (r : List Nat) (p v : Nat) :
    setPad (b :: r) (p + 1) v = b :: setPad r p v := by
  unfold setPad
  by_cases h : p < r.length
  · rw [if_pos (by simp; omega), if_pos h]
    rfl
  · rw [if_neg (by simp; omega), if_neg h]
    simp

theorem setPad_zero (f : List Nat) (v : Nat) : setPad f 0 v = v :: f.tail := by
  cases f with
  | nil => simp [setPad]
  | cons b r => simp [setPad]

/-- Decoded effect of one block write: the written value replaces the old
block value at weight `256 ^ p` (stated additively to stay in `Nat`). -/
theorem decodeL_setPad (f : List Nat) (p v : Nat) :
    decodeL (setPad f p v) + readVal f p * 256 ^ p = decodeL f + v * 256 ^ p := by
  induction p generalizing f with
  | zero =>
    cases f with
    | nil => simp [setPad, decodeL, readVal_nil]
    | cons b r => simp [setPad_zero, decodeL_cons, readVal_cons_zero]; ring
  | succ p ih =>
    cases f with
    | nil =>
      have h : setPad ([] : List Nat) (p + 1) v = 0 :: setPad [] p v := by
        unfold setPad
        simp [List.replicate_succ]
      rw [h, decodeL_cons, readVal_nil, decodeL_nil]
      have h2 := ih []
      rw [readVal_nil, decodeL_nil] at h2
      simp only [Nat.mul_zero, Nat.zero_mul, Nat.add_zero, Nat.zero_add] at h2
      rw [h2, pow_succ]
      ring
    | cons b r =>
      rw [setPad_cons_succ, decodeL_cons, decodeL_cons, readVal_cons_succ, pow_succ]
      have := ih r
      nlinarith [ih r]

/-- Writes of masked values keep every block below 256. -/
theorem setPad_blocks_le {f : List Nat} {p v m : Nat}
    (hf : ∀ b ∈ f, b ≤ m) (hv : v ≤ m) :
    ∀ b ∈ setPad f p v, b ≤ m := by
  intro b hb
  unfold setPad at hb
  by_cases h : p < f.length
  · rw [if_pos h] at hb
    rcases List.mem_or_eq_of_mem_set hb with h1 | h1
    · exact hf b h1
    · omega
  · rw [if_neg h] at hb
    rcases List.mem_append.mp hb with h1 | h1
    · rcases List.mem_append.mp h1 with h2 | h2
      · exact hf b h2
      · have := List.eq_of_mem_replicate h2
        omega
    · rcases List.mem_singleton.mp h1 with h2
      omega

/-- A file whose blocks are bytes decodes below `256 ^ length`. -/
theorem decodeL_lt_pow {f : List Nat} (hf : ∀ b ∈ f, b ≤ 255) :
    decodeL f < 256 ^ f.length := by
  induction f with
  | nil => simp [decodeL_nil]
  | cons b r ih =>
    have hb : b ≤ 255 := hf b (by simp)
    have hr : decodeL r < 256 ^ r.length := ih (fun x hx => hf x (by simp [hx]))
    rw [decodeL_cons]
    simp [List.length_cons, pow_succ]
    calc b + 256 * decodeL r ≤ 255 + 256 * decodeL r := by omega
      _ < 256 * (decodeL r + 1) := by omega
      _ ≤ 256 * 256 ^ r.length := by
          exact Nat.mul_le_mul_left 256 (by omega)
      _ = 256 ^ r.length * 256 := by ring

theorem readVal_of_lt {f : List Nat} {pos : Nat} (h : pos < f.length) :
    readVal f pos = f[pos] := by
  simp [readVal, List.getElem?_eq_getElem h]

/-- Dropping up to an in-range index peels off the block at that index. -/
theorem drop_eq_readVal_cons {f : List Nat} {j : Nat} (h : j < f.length) :
    f.drop j = readVal f j :: f.drop (j + 1) := by
  rw [readVal_of_lt h]
  exact List.drop_eq_getElem_cons h

/-- The block shift in the decoder: `x <<< (CHUNK_SIZE * 8 * i) = x * 256 ^ i`. -/
theorem shiftLeft_block (x i : Nat) : x <<< (CHUNK_SIZE * 8 * i) = x * 256 ^ i := by
  rw [Nat.shiftLeft_eq]
  norm_num [CHUNK_SIZE, pow_mul]

/-- The decoding loop from index `i` sums the dropped suffix at weight `256 ^ i`. -/
theorem file_to_num_loop_eq (f : List Nat) (i : Nat) :
    file_to_num_loop f i = 256 ^ i * decodeL (f.drop i) := by
  have H : ∀ n i, f.length ≤ i + n →
      file_to_num_loop f i = 256 ^ i * decodeL (f.drop i) := by
    intro n
    induction n with
    | zero =>
      intro i h
      rw [file_to_num_loop, if_neg (by omega), List.drop_eq_nil_of_le (by omega), decodeL_nil]
      simp
    | succ n ih =>
      intro i h
      rw [file_to_num_loop]
      by_cases hi : i < f.length
      · rw [if_pos hi, ih (i + 1) (by omega), drop_eq_readVal_cons hi, decodeL_cons,
          shiftLeft_block, pow_succ]
        ring
      · rw [if_neg hi, List.drop_eq_nil_of_le (by omega), decodeL_nil]
        simp
  exact H f.length i (by omega)

/-- `file_to_num` computes exactly the little-endian value of the file. -/
theorem file_to_num_eq (f : List Nat) : file_to_num f = decodeL f := by
  rw [file_to_num, file_to_num_loop_eq]
  simp

/-- Encoding then decoding is the identity on non-negative integers. -/
theorem decodeL_num_to_file (n : Nat) : decodeL (num_to_file n) = n := by
  induction n using Nat.strong_induction_on with
  | _ n ih =>
    rw [num_to_file]
    by_cases h : n = 0
    · rw [if_pos h, decodeL_nil, h]
    · rw [if_neg h, decodeL_cons, and_BLOCK_MASK, shiftRight_block,
        ih (n / 256) (Nat.div_lt_self (by omega) (by norm_num))]
      omega

/-- The triangular per-index contributions of the squaring algorithm:
index `i` contributes `a_i * (a_i + 2 * (value of the blocks above i))`
at weight `256 ^ (2 i)`. -/
def sqL : List Nat → Nat
  | [] => 0
  | a :: r => a * (a + 2 * (256 * decodeL r)) + (256 * 256) * sqL r

/-- Summing the triangular contributions gives the full square. -/
theorem sqL_eq (f : List Nat) : sqL f = decodeL f * decodeL f := by
  induction f with
  | nil => rfl
  | cons a r ih =>
    show a * (a + 2 * (256 * decodeL r)) + (256 * 256) * sqL r
      = decodeL (a :: r) * decodeL (a :: r)
    rw [ih, decodeL_cons]
    ring

/-- The multiplier consumed by one inner-loop iteration: the doubled
operand block off the diagonal, `block_i` itself on it. -/
def innerMul (bi : Nat) (f : List Nat) (i j : Nat) : Nat :=
  if i ≠ j then 2 * readVal f j else bi

/-- Weighted value consumed by the inner loop of `square` from index `j`
on: the doubled operand blocks, except the diagonal one which stands for
the single factor `block_i`. -/
def wsum (f : List Nat) (bi i j size : Nat) : Nat :=
  if j < size then innerMul bi f i j + 256 * wsum f bi i (j + 1) size
  else 0
termination_by size - j
decreasing_by omega

/-- Above the diagonal the inner-loop weights are just the doubled suffix. -/
theorem wsum_of_lt (f : List Nat) (bi : Nat) {i j : Nat} (hij : i < j) :
    wsum f bi i j f.length = 2 * decodeL (f.drop j) := by
  have H : ∀ n j, i < j → f.length ≤ j + n →
      wsum f bi i j f.length = 2 * decodeL (f.drop j) := by
    intro n
    induction n with
    | zero =>
      intro j hj h
      rw [wsum, if_neg (by omega), List.drop_eq_nil_of_le (by omega), decodeL_nil]
    | succ n ih =>
      intro j hj h
      rw [wsum]
      by_cases hlt : j < f.length
      · rw [if_pos hlt, innerMul, if_pos (by omega), ih (j + 1) (by omega) (by omega),
          drop_eq_readVal_cons hlt, decodeL_cons]
        ring
      · rw [if_neg hlt, List.drop_eq_nil_of_le (by omega), decodeL_nil]
  exact H f.length j hij (by omega)

/-- Starting on the diagonal, the inner loop weight list is `bi` followed
by the doubled blocks strictly above `i`. -/
theorem wsum_diag (f : List Nat) (bi : Nat) {i : Nat} (hi : i < f.length) :
    wsum f bi i i f.length = bi + 256 * (2 * decodeL (f.drop (i + 1))) := by
  rw [wsum, if_pos hi, innerMul, if_neg (by omega), wsum_of_lt f bi (by omega)]

/-- Reading back after a write: the written position holds the written
value, every other position is untouched. -/
theorem readVal_setPad (f : List Nat) (k v p : Nat) :
    readVal (setPad f k v) p = if p = k then v else readVal f p := by
  induction k generalizing f p with
  | zero =>
    rw [setPad_zero]
    cases p with
    | zero => simp [readVal_cons_zero]
    | succ p =>
      rw [readVal_cons_succ, if_neg (by omega)]
      cases f with
      | nil => simp [readVal_nil]
      | cons b r => rw [List.tail_cons, readVal_cons_succ]
  | succ k ih =>
    cases f with
    | nil =>
      have h : setPad ([] : List Nat) (k + 1) v = 0 :: setPad [] k v := by
        unfold setPad
        simp [List.replicate_succ]
      rw [h]
      cases p with
      | zero => simp [readVal_cons_zero, readVal_nil]
      | succ p =>
        rw [readVal_cons_succ, ih, readVal_nil, readVal_nil]
        by_cases hp : p = k
        · rw [if_pos hp, if_pos (by omega)]
        · rw [if_neg hp, if_neg (by omega)]
    | cons b r =>
      rw [setPad_cons_succ]
      cases p with
      | zero => simp [readVal_cons_zero]
      | succ p =>
        rw [readVal_cons_succ, ih, readVal_cons_succ]
        by_cases hp : p = k
        · rw [if_pos hp, if_pos (by omega)]
        · rw [if_neg hp, if_neg (by omega)]

/-- The carry loop never touches the operand file. -/
theorem carryLoop_inf (s : St) (k c : Nat) : (carryLoop s k c).inf = s.inf := by
  induction s, k, c using carryLoop.induct with
  | case1 s k => rw [carryLoop, if_pos rfl]
  | case2 s k c h ih =>
    rw [carryLoop, if_neg h]
    rw [ih, carryBody_inf]

/-- The carry loop never shrinks the result file. -/
theorem carryLoop_len_ge (s : St) (k c : Nat) :
    s.outf.length ≤ (carryLoop s k c).outf.length := by
  induction s, k, c using carryLoop.induct with
  | case1 s k => rw [carryLoop, if_pos rfl]
  | case2 s k c h ih =>
    rw [carryLoop, if_neg h]
    refine le_trans ?_ ih
    rw [carryBody_outf, setPad_length]
    omega

/-- A nonzero carry forces at least one write, so the result file ends
strictly past `k` afterwards. -/
theorem carryLoop_len_pos (s : St) (k c : Nat) (h : c ≠ 0) :
    k < (carryLoop s k c).outf.length := by
  rw [carryLoop, if_neg h]
  refine Nat.lt_of_lt_of_le ?_ (carryLoop_len_ge _ _ _)
  rw [carryBody_outf, setPad_length]
  omega

/-- Positions below `k` are untouched by the carry loop. -/
theorem carryLoop_keep_lo (s : St) (k c : Nat) (p : Nat) (hp : p < k) :
    readVal (carryLoop s k c).outf p = readVal s.outf p := by
  induction s, k, c using carryLoop.induct generalizing p with
  | case1 s k => rw [carryLoop, if_pos rfl]
  | case2 s k c h ih =>
    rw [carryLoop, if_neg h]
    rw [ih _ (by omega), carryBody_outf, readVal_setPad, if_neg (by omega : ¬ p = k)]

/-- The carry loop performs exactly as many reads as writes. -/
theorem carryLoop_counts (s : St) (k c : Nat) :
    (carryLoop s k c).reads + s.writes = (carryLoop s k c).writes + s.reads := by
  induction s, k, c using carryLoop.induct with
  | case1 s k => rw [carryLoop, if_pos rfl]; omega
  | case2 s k c h ih =>
    rw [carryLoop, if_neg h]
    rw [carryBody_reads, carryBody_writes] at ih
    omega

/-- Decoded effect of the carry loop: it adds `carry * 256 ^ k` to the
value stored in the result file. -/
theorem carryLoop_decode (s : St) (k c : Nat) :
    decodeL (carryLoop s k c).outf = decodeL s.outf + c * 256 ^ k := by
  induction s, k, c using carryLoop.induct with
  | case1 s k => rw [carryLoop, if_pos rfl]; simp
  | case2 s k c h ih =>
    rw [carryLoop, if_neg h]
    rw [ih, carryBody_outf, carryBody_carry]
    have hsp := decodeL_setPad s.outf k ((readVal s.outf k + c) % 256)
    have hdm := Nat.mod_add_div (readVal s.outf k + c) 256
    zify at hsp hdm ⊢
    rw [pow_succ]
    linear_combination hsp + (256 : ℤ) ^ k * hdm


theorem innerBody_inf (i bi j c : Nat) (s : St) : (innerBody i bi j c s).1.inf = s.inf := by
  by_cases h : i ≠ j
  · simp [innerBody, h]
  · simp [innerBody, h]

theorem innerBody_outf (i bi j c : Nat) (s : St) :
    (innerBody i bi j c s).1.outf =
      setPad s.outf (i + j) ((bi * innerMul bi s.inf i j + c + readVal s.outf (i + j)) % 256) := by
  by_cases h : i ≠ j
  · simp [innerBody, innerMul, h, and_BLOCK_MASK]
  · simp [innerBody, innerMul, h, and_BLOCK_MASK]

theorem innerBody_carry (i bi j c : Nat) (s : St) :
    (innerBody i bi j c s).2 =
      (bi * innerMul bi s.inf i j + c + readVal s.outf (i + j)) / 256 := by
  by_cases h : i ≠ j
  · simp [innerBody, innerMul, h, shiftRight_block]
  · simp [innerBody, innerMul, h, shiftRight_block]

theorem innerBody_reads (i bi j c : Nat) (s : St) :
    (innerBody i bi j c s).1.reads = s.reads + (if i ≠ j then 2 else 1) := by
  by_cases h : i ≠ j
  · simp [innerBody, h]
  · simp [innerBody, h]

theorem innerBody_writes (i bi j c : Nat) (s : St) :
    (innerBody i bi j c s).1.writes = s.writes + 1 := by
  by_cases h : i ≠ j
  · simp [innerBody, h]
  · simp [innerBody, h]

/-- The inner loop never touches the operand file. -/
theorem innerLoop_inf (i size bi j c : Nat) (s : St) :
    (innerLoop i size bi j c s).1.inf = s.inf := by
  induction j, c, s using innerLoop.induct i size bi with
  | case1 j c s h ih =>
    rw [innerLoop, if_pos h]
    rw [ih, innerBody_inf]
  | case2 j c s h =>
    rw [innerLoop, if_neg h]

/-- The inner loop never shrinks the result file. -/
theorem innerLoop_len_ge (i size bi j c : Nat) (s : St) :
    s.outf.length ≤ (innerLoop i size bi j c s).1.outf.length := by
  induction j, c, s using innerLoop.induct i size bi with
  | case1 j c s h ih =>
    rw [innerLoop, if_pos h]
    refine le_trans ?_ ih
    rw [innerBody_outf, setPad_length]
    omega
  | case2 j c s h =>
    rw [innerLoop, if_neg h]

/-- All writes of the inner loop stay below slot `i + size`, so the result
file ends at or below `max length (i + size)`. -/
theorem innerLoop_len_le (i size bi j c : Nat) (s : St) :
    (innerLoop i size bi j c s).1.outf.length ≤ max s.outf.length (i + size) := by
  induction j, c, s using innerLoop.induct i size bi with
  | case1 j c s h ih =>
    rw [innerLoop, if_pos h]
    refine le_trans ih ?_
    rw [innerBody_outf, setPad_length]
    omega
  | case2 j c s h =>
    rw [innerLoop, if_neg h]
    exact le_max_left _ _

/-- The inner loop writes only masked bytes. -/
theorem innerLoop_blocks (i size bi j c : Nat) (s : St)
    (hs : ∀ b ∈ s.outf, b ≤ 255) :
    ∀ b ∈ (innerLoop i size bi j c s).1.outf, b ≤ 255 := by
  induction j, c, s using innerLoop.induct i size bi with
  | case1 j c s h ih =>
    rw [innerLoop, if_pos h]
    refine ih ?_
    rw [innerBody_outf]
    exact setPad_blocks_le hs (Nat.le_of_lt_succ (Nat.mod_lt _ (by norm_num)))
  | case2 j c s h =>
    rw [innerLoop, if_neg h]
    exact hs

/-- Read/write accounting of the inner loop above the diagonal: two reads
and one write per iteration. -/
theorem innerLoop_counts_hi (i size bi j c : Nat) (s : St) :
    i < j →
      (innerLoop i size bi j c s).1.reads = s.reads + 2 * (size - j) ∧
      (innerLoop i size bi j c s).1.writes = s.writes + (size - j) := by
  induction j, c, s using innerLoop.induct i size bi with
  | case1 j c s h ih =>
    intro hij
    rw [innerLoop, if_pos h]
    obtain ⟨hr, hw⟩ := ih (by omega)
    rw [hr, hw, innerBody_reads, innerBody_writes, if_pos (by omega : i ≠ j)]
    omega
  | case2 j c s h =>
    intro hij
    rw [innerLoop, if_neg h]
    simp [Nat.sub_eq_zero_of_le (by omega : size ≤ j)]

/-- Read/write accounting of the inner loop from the diagonal: the first
iteration reads only the existing partial value. -/
theorem innerLoop_counts_diag (i size bi c : Nat) (s : St) (hi : i < size) :
    (innerLoop i size bi i c s).1.reads = s.reads + 1 + 2 * (size - i - 1) ∧
    (innerLoop i size bi i c s).1.writes = s.writes + (size - i) := by
  rw [innerLoop, if_pos hi]
  obtain ⟨hr, hw⟩ := innerLoop_counts_hi i size bi (i + 1)
    (innerBody i bi i c s).2 (innerBody i bi i c s).1 (by omega)
  rw [hr, hw, innerBody_reads, innerBody_writes, if_neg (by omega : ¬ i ≠ i)]
  omega

/-- Decoded effect of the inner loop: starting at column `j` with a
pending carry, it adds `carry` plus `block_i` times the weighted remaining
operand blocks at weight `256 ^ (i + j)`, leaving the final carry pending
at weight `256 ^ (i + size)`. -/
theorem innerLoop_decode (i size bi j c : Nat) (s : St) :
    j ≤ size →
      decodeL (innerLoop i size bi j c s).1.outf
          + (innerLoop i size bi j c s).2 * 256 ^ (i + size)
        = decodeL s.outf + (c + bi * wsum s.inf bi i j size) * 256 ^ (i + j) := by
  induction j, c, s using innerLoop.induct i size bi with
  | case1 j c s h ih =>
    intro hj
    rw [innerLoop, if_pos h, innerBody_carry]
    have hih := ih (by omega)
    rw [innerBody_carry, innerBody_outf, innerBody_inf] at hih
    rw [wsum, if_pos h]
    have hsp := decodeL_setPad s.outf (i + j)
      ((bi * innerMul bi s.inf i j + c + readVal s.outf (i + j)) % 256)
    have hmd := Nat.mod_add_div (bi * innerMul bi s.inf i j + c + readVal s.outf (i + j)) 256
    have hpow : (i + (j + 1)) = (i + j) + 1 := rfl
    rw [hpow, pow_succ] at hih
    zify at hih hsp hmd ⊢
    linear_combination hih + hsp + (256 : ℤ) ^ (i + j) * hmd
  | case2 j c s h =>
    intro hj
    have hje : j = size := by omega
    rw [innerLoop, if_neg h, wsum, if_neg h, hje]
    ring

/-- One outer-loop pass never touches the operand file. -/
theorem outerBody_inf (size i : Nat) (s : St) : (outerBody size i s).inf = s.inf := by
  simp [outerBody, carryLoop_inf, innerLoop_inf]

/-- Decoded effect of one outer-loop pass: it adds the operand block `i`
times the weighted remaining blocks at weight `256 ^ (i + i)`. -/
theorem outerBody_decode (f : List Nat) (i : Nat) (s : St) (hs : s.inf = f)
    (hi : i ≤ f.length) :
    decodeL (outerBody f.length i s).outf
      = decodeL s.outf + readVal f i * wsum f (readVal f i) i i f.length * 256 ^ (i + i) := by
  simp only [outerBody]
  rw [carryLoop_decode]
  rw [innerLoop_decode i f.length (rdIn s i).1 i 0 (rdIn s i).2 hi]
  rw [rdIn_fst, rdIn_outf, rdIn_inf, hs]
  ring

/-- Decoded effect of the outer loop from index `i`: it adds the
triangular contributions of the operand blocks from `i` on. -/
theorem outerLoop_decode (f : List Nat) (i : Nat) (s : St) :
    s.inf = f → i ≤ f.length →
      decodeL (outerLoop f.length i s).outf
        = decodeL s.outf + 256 ^ (i + i) * sqL (f.drop i) := by
  induction i, s using outerLoop.induct f.length with
  | case1 i s h ih =>
    intro hs hi
    rw [outerLoop, if_pos h]
    rw [ih (by rw [outerBody_inf, hs]) (by omega)]
    rw [outerBody_decode f i s hs (by omega), wsum_diag f (readVal f i) h,
      drop_eq_readVal_cons h, sqL]
    ring
  | case2 i s h =>
    intro hs hi
    have hie : i = f.length := by omega
    rw [outerLoop, if_neg h, hie, List.drop_length, sqL]
    simp

/-- The outer loop never touches the operand file. -/
theorem outerLoop_inf (size i : Nat) (s : St) : (outerLoop size i s).inf = s.inf := by
  induction i, s using outerLoop.induct size with
  | case1 i s h ih =>
    rw [outerLoop, if_pos h]
    rw [ih, outerBody_inf]
  | case2 i s h =>
    rw [outerLoop, if_neg h]

/-- Main semantic fact: `square` stores the square of the decoded operand
in the result file. -/
theorem square_decode (f : List Nat) :
    decodeL (square f).outf = decodeL f * decodeL f := by
  show decodeL (outerLoop f.length 0 { inf := f, outf := [], reads := 0, writes := 0 }).outf = _
  rw [outerLoop_decode f 0 { inf := f, outf := [], reads := 0, writes := 0 } rfl (by omega)]
  simp [decodeL_nil, sqL_eq]

/-- `square` leaves the operand file untouched. -/
theorem square_inf (f : List Nat) : (square f).inf = f := by
  show (outerLoop f.length 0 { inf := f, outf := [], reads := 0, writes := 0 }).inf = f
  rw [outerLoop_inf]

/-- The surplus of reads over writes accumulated by the outer loop from
index `i`: `size - i` per remaining pass. -/
def gapLoop (size i : Nat) : Nat :=
  if i < size then (size - i) + gapLoop size (i + 1) else 0
termination_by size - i
decreasing_by omega

/-- One outer-loop pass performs `size - i` more reads than writes. -/
theorem outerBody_counts (size i : Nat) (s : St) (h : i < size) :
    (outerBody size i s).reads + s.writes
      = (outerBody size i s).writes + s.reads + (size - i) := by
  simp only [outerBody]
  have hc := carryLoop_counts (innerLoop i size (rdIn s i).1 i 0 (rdIn s i).2).1 (i + size)
    (innerLoop i size (rdIn s i).1 i 0 (rdIn s i).2).2
  obtain ⟨hr, hw⟩ := innerLoop_counts_diag i size (rdIn s i).1 0 (rdIn s i).2 h
  have h1 : (rdIn s i).2.writes = s.writes := rfl
  have h2 : (rdIn s i).2.reads = s.reads + 1 := rfl
  omega

/-- Read/write accounting of the outer loop: the surplus of reads over
writes is `gapLoop size i`, independent of any block value. -/
theorem outerLoop_counts (size i : Nat) (s : St) :
    (outerLoop size i s).reads + s.writes
      = (outerLoop size i s).writes + s.reads + gapLoop size i := by
  induction i, s using outerLoop.induct size with
  | case1 i s h ih =>
    rw [outerLoop, if_pos h, gapLoop, if_pos h]
    have hb := outerBody_counts size i s h
    omega
  | case2 i s h =>
    rw [outerLoop, if_neg h, gapLoop, if_neg h]
    omega

/-- The carry loop writes only masked bytes. -/
theorem carryLoop_blocks (s : St) (k c : Nat) (hs : ∀ b ∈ s.outf, b ≤ 255) :
    ∀ b ∈ (carryLoop s k c).outf, b ≤ 255 := by
  induction s, k, c using carryLoop.induct with
  | case1 s k => rw [carryLoop, if_pos rfl]; exact hs
  | case2 s k c h ih =>
    rw [carryLoop, if_neg h]
    refine ih ?_
    rw [carryBody_outf]
    exact setPad_blocks_le hs (Nat.le_of_lt_succ (Nat.mod_lt _ (by norm_num)))

/-- Extension behaviour of the carry loop: either it stays within the
current result length, or its final write left a nonzero top block, whose
weight is below the decoded result value. -/
theorem carryLoop_ext (s : St) (k c : Nat) :
    (carryLoop s k c).outf.length ≤ s.outf.length ∨
      256 ^ ((carryLoop s k c).outf.length - 1) ≤ decodeL (carryLoop s k c).outf := by
  induction s, k, c using carryLoop.induct with
  | case1 s k =>
    left
    rw [carryLoop, if_pos rfl]
  | case2 s k c h ih =>
    rw [carryLoop, if_neg h]
    rcases ih with hle | hbig
    · have hlen1 : (carryBody s k c).1.outf.length = max s.outf.length (k + 1) := by
        rw [carryBody_outf, setPad_length]
      by_cases hk : k + 1 ≤ s.outf.length
      · left
        omega
      · have hout : s.outf.length ≤ k := by omega
        have hrd : readVal s.outf k = 0 := readVal_of_len_le hout
        have hc2 : (carryBody s k c).2 = c / 256 := by
          rw [carryBody_carry, hrd, Nat.zero_add]
        by_cases hnv : c % 256 = 0
        · exfalso
          have hcpos : (carryBody s k c).2 ≠ 0 := by
            rw [hc2]
            omega
          have := carryLoop_len_pos (carryBody s k c).1 (k + 1) (carryBody s k c).2 hcpos
          omega
        · right
          have hge : k + 1 ≤ (carryLoop (carryBody s k c).1 (k + 1) (carryBody s k c).2).outf.length := by
            refine le_trans ?_ (carryLoop_len_ge _ _ _)
            omega
          have hLe : (carryLoop (carryBody s k c).1 (k + 1) (carryBody s k c).2).outf.length = k + 1 := by
            omega
          have hkeep := carryLoop_keep_lo (carryBody s k c).1 (k + 1) (carryBody s k c).2 k (by omega)
          have hself : readVal (carryBody s k c).1.outf k = c % 256 := by
            rw [carryBody_outf, readVal_setPad, if_pos rfl, hrd, Nat.zero_add]
          rw [hLe]
          have hub := readVal_mul_le_decodeL
            (carryLoop (carryBody s k c).1 (k + 1) (carryBody s k c).2).outf k
          rw [hkeep, hself] at hub
          calc 256 ^ (k + 1 - 1) = 1 * 256 ^ k := by norm_num
            _ ≤ (c % 256) * 256 ^ k := by
                exact Nat.mul_le_mul_right _ (by omega)
            _ ≤ _ := hub
    · right
      exact hbig

/-- One outer-loop pass never shrinks the result file. -/
theorem outerBody_len_ge (size i : Nat) (s : St) :
    s.outf.length ≤ (outerBody size i s).outf.length := by
  simp only [outerBody]
  refine le_trans ?_ (carryLoop_len_ge _ _ _)
  show (rdIn s i).2.outf.length ≤ _
  exact innerLoop_len_ge _ _ _ _ _ _

/-- One outer-loop pass writes only masked bytes. -/
theorem outerBody_blocks (size i : Nat) (s : St) (hs : ∀ b ∈ s.outf, b ≤ 255) :
    ∀ b ∈ (outerBody size i s).outf, b ≤ 255 := by
  simp only [outerBody]
  exact carryLoop_blocks _ _ _ (innerLoop_blocks _ _ _ _ _ _ hs)

/-- Length invariant of the outer loop: if the result file currently fits
in `2 * size` blocks, or tops out with a block whose weight is bounded by
its decoded value, then the same holds when the loop finishes. -/
theorem outerLoop_len_inv (f : List Nat) (i : Nat) (s : St) :
    s.inf = f → i ≤ f.length → (∀ b ∈ s.outf, b ≤ 255) →
      (s.outf.length ≤ f.length + f.length ∨
        256 ^ (s.outf.length - 1) ≤ decodeL s.outf) →
      ((outerLoop f.length i s).outf.length ≤ f.length + f.length ∨
        256 ^ ((outerLoop f.length i s).outf.length - 1)
          ≤ decodeL (outerLoop f.length i s).outf) := by
  induction i, s using outerLoop.induct f.length with
  | case1 i s h ih =>
    intro hs hi hblocks hinv
    rw [outerLoop, if_pos h]
    refine ih (by rw [outerBody_inf, hs]) (by omega) (outerBody_blocks _ _ _ hblocks) ?_
    have hOB : outerBody f.length i s
        = carryLoop (innerLoop i f.length (rdIn s i).1 i 0 (rdIn s i).2).1 (i + f.length)
            (innerLoop i f.length (rdIn s i).1 i 0 (rdIn s i).2).2 := rfl
    rcases hOB ▸ carryLoop_ext (innerLoop i f.length (rdIn s i).1 i 0 (rdIn s i).2).1
        (i + f.length) (innerLoop i f.length (rdIn s i).1 i 0 (rdIn s i).2).2 with hle | hbig
    · have hil : (innerLoop i f.length (rdIn s i).1 i 0 (rdIn s i).2).1.outf.length
          ≤ max s.outf.length (i + f.length) := by
        have := innerLoop_len_le i f.length (rdIn s i).1 i 0 (rdIn s i).2
        exact this
      rcases hinv with hfit | htop
      · left
        omega
      · by_cases hsmall : (outerBody f.length i s).outf.length ≤ f.length + f.length
        · left
          exact hsmall
        · right
          have hmono := outerBody_len_ge f.length i s
          have heq : (outerBody f.length i s).outf.length = s.outf.length := by
            omega
          have hdec := outerBody_decode f i s hs (by omega)
          rw [heq, hdec]
          exact le_trans htop (Nat.le_add_right _ _)
    · right
      exact hbig
  | case2 i s h =>
    intro hs hi hblocks hinv
    rw [outerLoop, if_neg h]
    exact hinv

/-- The square of a value below `256 ^ n` is below `256 ^ (n + n)`. -/
theorem sq_lt_pow {a n : Nat} (ha : a < 256 ^ n) : a * a < 256 ^ (n + n) := by
  rw [pow_add]
  rcases Nat.eq_zero_or_pos a with hz | hp
  · subst hz
    simp
  · exact Nat.mul_lt_mul_of_lt_of_le ha (le_of_lt ha) (by positivity)

/-- The result file of `square` holds at most `2 * size` blocks. -/
theorem square_len_le (f : List Nat) (hf : ∀ b ∈ f, b ≤ 255) :
    (square f).outf.length ≤ 2 * f.length := by
  have hinv := outerLoop_len_inv f 0 { inf := f, outf := [], reads := 0, writes := 0 }
    rfl (by omega) (by simp) (by left; simp)
  have hsq : decodeL (square f).outf = decodeL f * decodeL f := square_decode f
  rcases hinv with hfit | htop
  · show (outerLoop (get_file_size f) 0 _).outf.length ≤ 2 * f.length
    rw [get_file_size]
    omega
  · have hN : decodeL f < 256 ^ f.length := decodeL_lt_pow hf
    have hNN : decodeL (square f).outf < 256 ^ (f.length + f.length) := by
      rw [hsq]
      exact sq_lt_pow hN
    have htop2 : 256 ^ ((square f).outf.length - 1) < 256 ^ (f.length + f.length) :=
      lt_of_le_of_lt htop hNN
    by_contra hcon
    have hge : f.length + f.length ≤ (square f).outf.length - 1 := by omega
    exact absurd htop2 (not_lt.mpr (Nat.pow_le_pow_right (by norm_num) hge))

/-- Modelled from the spec: one iteration of the inner loop of the naive
full schoolbook oracle ("removing the ×2 doubling and instead iterating
the full square"): every term is `block_i * operand[j]`, undoubled. -/
def innerBodyF (i block_i j carry : Nat) (s : St) : St × Nat :=
  let r := rdIn s j
  let e := rdOut r.2 (i + j)
  let block_prod := block_i * r.1 + carry + e.1
  (wrOut e.2 (i + j) (block_prod &&& BLOCK_MASK), block_prod >>> (CHUNK_SIZE * 8))

theorem innerBodyF_inf (i bi j c : Nat) (s : St) : (innerBodyF i bi j c s).1.inf = s.inf := rfl

theorem innerBodyF_outf (i bi j c : Nat) (s : St) :
    (innerBodyF i bi j c s).1.outf =
      setPad s.outf (i + j) ((bi * readVal s.inf j + c + readVal s.outf (i + j)) % 256) := by
  simp only [innerBodyF, and_BLOCK_MASK]
  rfl

theorem innerBodyF_carry (i bi j c : Nat) (s : St) :
    (innerBodyF i bi j c s).2 = (bi * readVal s.inf j + c + readVal s.outf (i + j)) / 256 := by
  simp only [innerBodyF, shiftRight_block]
  rfl

/-- Modelled from the spec: the inner loop of the naive full schoolbook
oracle, `j` running from 0 to `size - 1` with no doubling. -/
def innerLoopF (i size block_i j carry : Nat) (s : St) : St × Nat :=
  if j < size then
    innerLoopF i size block_i (j + 1) (innerBodyF i block_i j carry s).2
      (innerBodyF i block_i j carry s).1
  else (s, carry)
termination_by size - j
decreasing_by omega

/-- Undoubled weighted value consumed by the naive inner loop from `j`. -/
def wsumF (f : List Nat) (j size : Nat) : Nat :=
  if j < size then readVal f j + 256 * wsumF f (j + 1) size
  else 0
termination_by size - j
decreasing_by omega

/-- The naive inner-loop weights are exactly the dropped operand suffix. -/
theorem wsumF_eq (f : List Nat) (j : Nat) :
    wsumF f j f.length = decodeL (f.drop j) := by
  have H : ∀ n j, f.length ≤ j + n → wsumF f j f.length = decodeL (f.drop j) := by
    intro n
    induction n with
    | zero =>
      intro j h
      rw [wsumF, if_neg (by omega), List.drop_eq_nil_of_le (by omega), decodeL_nil]
    | succ n ih =>
      intro j h
      rw [wsumF]
      by_cases hlt : j < f.length
      · rw [if_pos hlt, ih (j + 1) (by omega), drop_eq_readVal_cons hlt, decodeL_cons]
      · rw [if_neg hlt, List.drop_eq_nil_of_le (by omega), decodeL_nil]
  exact H f.length j (by omega)

/-- The naive inner loop never touches the operand file. -/
theorem innerLoopF_inf (i size bi j c : Nat) (s : St) :
    (innerLoopF i size bi j c s).1.inf = s.inf := by
  induction j, c, s using innerLoopF.induct i size bi with
  | case1 j c s h ih =>
    rw [innerLoopF, if_pos h]
    rw [ih, innerBodyF_inf]
  | case2 j c s h =>
    rw [innerLoopF, if_neg h]

/-- Decoded effect of the naive inner loop. -/
theorem innerLoopF_decode (i size bi j c : Nat) (s : St) :
    j ≤ size →
      decodeL (innerLoopF i size bi j c s).1.outf
          + (innerLoopF i size bi j c s).2 * 256 ^ (i + size)
        = decodeL s.outf + (c + bi * wsumF s.inf j size) * 256 ^ (i + j) := by
  induction j, c, s using innerLoopF.induct i size bi with
  | case1 j c s h ih =>
    intro hj
    rw [innerLoopF, if_pos h, innerBodyF_carry]
    have hih := ih (by omega)
    rw [innerBodyF_carry, innerBodyF_outf, innerBodyF_inf] at hih
    rw [wsumF, if_pos h]
    have hsp := decodeL_setPad s.outf (i + j)
      ((bi * readVal s.inf j + c + readVal s.outf (i + j)) % 256)
    have hmd := Nat.mod_add_div (bi * readVal s.inf j + c + readVal s.outf (i + j)) 256
    have hpow : (i + (j + 1)) = (i + j) + 1 := rfl
    rw [hpow, pow_succ] at hih
    zify at hih hsp hmd ⊢
    linear_combination hih + hsp + (256 : ℤ) ^ (i + j) * hmd
  | case2 j c s h =>
    intro hj
    have hje : j = size := by omega
    rw [innerLoopF, if_neg h, wsumF, if_neg h, hje]
    ring

/-- Modelled from the spec: one outer pass of the naive oracle (inner loop
from `j = 0`), followed by the usual carry propagation. -/
def outerBodyF (size i : Nat) (s : St) : St :=
  let b := rdIn s i
  let r := innerLoopF i size b.1 0 0 b.2
  carryLoop r.1 (i + size) r.2

theorem outerBodyF_inf (size i : Nat) (s : St) : (outerBodyF size i s).inf = s.inf := by
  simp [outerBodyF, carryLoop_inf, innerLoopF_inf]

/-- Decoded effect of one naive outer pass: block `i` times the whole
operand value, at weight `256 ^ i`. -/
theorem outerBodyF_decode (f : List Nat) (i : Nat) (s : St) (hs : s.inf = f) :
    decodeL (outerBodyF f.length i s).outf
      = decodeL s.outf + readVal f i * decodeL f * 256 ^ i := by
  simp only [outerBodyF]
  rw [carryLoop_decode]
  rw [innerLoopF_decode i f.length (rdIn s i).1 0 0 (rdIn s i).2 (by omega)]
  rw [rdIn_fst, rdIn_outf, rdIn_inf, hs, wsumF_eq, List.drop_zero]
  ring

/-- Modelled from the spec: the outer loop of the naive oracle. -/
def outerLoopF (size i : Nat) (s : St) : St :=
  if i < size then outerLoopF size (i + 1) (outerBodyF size i s) else s
termination_by size - i
decreasing_by omega

/-- Decoded effect of the naive outer loop from index `i`. -/
theorem outerLoopF_decode (f : List Nat) (i : Nat) (s : St) :
    s.inf = f → i ≤ f.length →
      decodeL (outerLoopF f.length i s).outf
        = decodeL s.outf + 256 ^ i * decodeL (f.drop i) * decodeL f := by
  induction i, s using outerLoopF.induct f.length with
  | case1 i s h ih =>
    intro hs hi
    rw [outerLoopF, if_pos h]
    rw [ih (by rw [outerBodyF_inf, hs]) (by omega)]
    rw [outerBodyF_decode f i s hs, drop_eq_readVal_cons h, decodeL_cons, pow_succ]
    ring
  | case2 i s h =>
    intro hs hi
    have hie : i = f.length := by omega
    rw [outerLoopF, if_neg h, hie, List.drop_length, decodeL_nil]
    simp

/-- Modelled from the spec: the naive full schoolbook squaring oracle. -/
def squareFull (f : List Nat) : St :=
  outerLoopF (get_file_size f) 0 { inf := f, outf := [], reads := 0, writes := 0 }

/-- The naive oracle also stores the square of the operand. -/
theorem squareFull_decode (f : List Nat) :
    decodeL (squareFull f).outf = decodeL f * decodeL f := by
  show decodeL (outerLoopF f.length 0 { inf := f, outf := [], reads := 0, writes := 0 }).outf = _
  rw [outerLoopF_decode f 0 { inf := f, outf := [], reads := 0, writes := 0 } rfl (by omega)]
  simp [decodeL_nil]

/-- Decoded value of the result file of `square`, via `file_to_num`. -/
theorem file_to_num_square (g : List Nat) :
    file_to_num (square g).outf = file_to_num g * file_to_num g := by
  rw [file_to_num_eq, file_to_num_eq, square_decode]

/-- Full evaluation of `square` on the one-block operand `[255]`. -/
theorem square_255_eval :
    square [255] = { inf := [255], outf := [1, 254], reads := 3, writes := 2 } := by
  show outerLoop 1 0 { inf := [255], outf := [], reads := 0, writes := 0 } = _
  rw [outerLoop, if_pos (by norm_num)]
  rw [outerLoop, if_neg (by norm_num)]
  simp only [outerBody]
  rw [innerLoop, if_pos (by norm_num)]
  rw [innerLoop, if_neg (by norm_num)]
  rw [carryLoop, if_neg (by decide)]
  rw [carryLoop, if_pos (by decide)]
  rfl

/-- Full evaluation of `square` on the one-block operand `[1]`. -/
theorem square_one_eval :
    square [1] = { inf := [1], outf := [1], reads := 2, writes := 1 } := by
  show outerLoop 1 0 { inf := [1], outf := [], reads := 0, writes := 0 } = _
  rw [outerLoop, if_pos (by norm_num)]
  rw [outerLoop, if_neg (by norm_num)]
  simp only [outerBody]
  rw [innerLoop, if_pos (by norm_num)]
  rw [innerLoop, if_neg (by norm_num)]
  rw [carryLoop, if_pos (by decide)]
  rfl

/-- C1: for every non-negative integer `n`, decoding the result store
produced by `square` applied to the encoding of `n` yields `n * n`. -/
theorem C1_square_correct (n : Nat) :
    file_to_num (square (num_to_file n)).outf = n * n := by
  rw [file_to_num_square, file_to_num_eq, decodeL_num_to_file]

/-- C2 (counterexample): the operands `[1]` and `[255]` have the same
block length, yet one `square` call from reset counters performs 2 reads
on the former and 3 on the latter — the counts are not a function of size
alone, because the tail carry-propagation loop runs value-dependently. -/
theorem C2_counterexample :
    ([1] : List Nat).length = ([255] : List Nat).length ∧
      (square [1]).reads ≠ (square [255]).reads := by
  constructor
  · rfl
  · rw [square_one_eval, square_255_eval]
    decide

/-- C2 (amended): after a reset, the surplus of reads over writes of one
`square` call is a deterministic function of `size` alone (namely
`gapLoop size 0`, the sum of `size - i` over the outer passes); the raw
counts additionally contain one read and one write per value-dependent
carry-propagation step, which cancel in the difference. -/
theorem C2_read_write_surplus (f : List Nat) :
    (square f).reads = (square f).writes + gapLoop (get_file_size f) 0 := by
  have h := outerLoop_counts f.length 0 { inf := f, outf := [], reads := 0, writes := 0 }
  have e1 : ({ inf := f, outf := [], reads := 0, writes := 0 } : St).writes = 0 := rfl
  have e2 : ({ inf := f, outf := [], reads := 0, writes := 0 } : St).reads = 0 := rfl
  have e3 : (square f).writes
      = (outerLoop f.length 0 { inf := f, outf := [], reads := 0, writes := 0 }).writes := rfl
  have e4 : (square f).reads
      = (outerLoop f.length 0 { inf := f, outf := [], reads := 0, writes := 0 }).reads := rfl
  have e5 : get_file_size f = f.length := rfl
  rw [e3, e4, e5]
  omega

/-- C3 (counterexample): `write_block` does not mask: passing `256`
(which the claim says would store `256 &&& BLOCK_MASK = 0`) makes
`int.to_bytes` raise `OverflowError` instead of storing anything. -/
theorem C3_counterexample :
    (write_block [] 0 256 0).1 = none ∧ 256 &&& BLOCK_MASK = 0 := by
  decide

/-- C3 (amended): for every index `pos` and every value already in
`[0, 2^W - 1]`, `write_block` stores the value (equal to its masked form)
at index `pos`, extending the backing medium if needed, and increments
the write counter; values outside that range make it fail instead of
being masked (the callers in `square` mask before every write). -/
theorem C3_write_block (f : List Nat) (pos v w : Nat) (hv : v ≤ BLOCK_MASK) :
    write_block f pos v w = (some (setPad f pos v), w + 1) ∧
      readVal (setPad f pos v) pos = v ∧
      (setPad f pos v).length = max f.length (pos + 1) := by
  refine ⟨?_, ?_, setPad_length f pos v⟩
  · simp [write_block, if_pos hv]
  · rw [readVal_setPad, if_pos rfl]

/-- C3 witness: writing value 7 at index 2 of the one-block store `[1]`. -/
theorem C3_write_block_witness :
    (7 : Nat) ≤ BLOCK_MASK ∧
      (write_block [1] 2 7 5 = (some (setPad [1] 2 7), 5 + 1) ∧
        readVal (setPad [1] 2 7) 2 = 7 ∧
        (setPad [1] 2 7).length = max ([1] : List Nat).length (2 + 1)) :=
  ⟨by decide, C3_write_block [1] 2 7 5 (by decide)⟩

/-- C4: `read_block` returns the stored block below the current length
and 0 at or beyond it, never fails (it is total), does not modify or
extend the file, and increments the read counter in both cases. -/
theorem C4_read_block (f : List Nat) (pos r : Nat) :
    (∀ h : pos < f.length, (read_block f pos r).1 = f.get ⟨pos, h⟩) ∧
      (f.length ≤ pos → (read_block f pos r).1 = 0) ∧
      (read_block f pos r).2.1 = f ∧
      (read_block f pos r).2.2 = r + 1 := by
  refine ⟨?_, ?_, rfl, rfl⟩
  · intro h
    show readVal f pos = _
    rw [readVal_of_lt h, List.get_eq_getElem]
  · intro h
    exact readVal_of_len_le h

/-- C4 witness: reading the one-block store `[5]` in range and past the
end. -/
theorem C4_read_block_witness :
    (read_block [5] 0 0).1 = ([5] : List Nat).get ⟨0, by decide⟩ ∧
      (read_block [5] 1 0).1 = 0 ∧
      (read_block [5] 0 0).2.1 = [5] ∧
      (read_block [5] 0 0).2.2 = 0 + 1 :=
  ⟨(C4_read_block [5] 0 0).1 (by decide), (C4_read_block [5] 1 0).2.1 (by decide),
    (C4_read_block [5] 0 0).2.2.1, (C4_read_block [5] 0 0).2.2.2⟩

/-- C5: decoding the store produced by encoding `n` returns `n`. -/
theorem C5_roundtrip (n : Nat) : file_to_num (num_to_file n) = n := by
  rw [file_to_num_eq, decodeL_num_to_file]

/-- C6: starting from the encoding of 3 and applying `square` six times,
each time feeding the result store back as the operand, the decoded
values are 9, 81, 6561, 43046721, 1853020188851841 and
3433683820292512484657849089281. -/
theorem C6_repeated_squares :
    file_to_num (square (num_to_file 3)).outf = 9 ∧
    file_to_num (square (square (num_to_file 3)).outf).outf = 81 ∧
    file_to_num (square (square (square (num_to_file 3)).outf).outf).outf = 6561 ∧
    file_to_num (square (square (square (square (num_to_file 3)).outf).outf).outf).outf
      = 43046721 ∧
    file_to_num (square (square (square (square (square
        (num_to_file 3)).outf).outf).outf).outf).outf = 1853020188851841 ∧
    file_to_num (square (square (square (square (square (square
        (num_to_file 3)).outf).outf).outf).outf).outf).outf
      = 3433683820292512484657849089281 := by
  have h0 : file_to_num (num_to_file 3) = 3 := by
    rw [file_to_num_eq, decodeL_num_to_file]
  refine ⟨?_, ?_, ?_, ?_, ?_, ?_⟩ <;>
    simp [file_to_num_square, h0]

/-- C7: the triangular squaring of `square` (inner index from the
diagonal, off-diagonal blocks doubled) and the naive full schoolbook
variant (inner index from 0, no doubling) decode to the same integer on
every operand store. -/
theorem C7_triangular_eq_full (f : List Nat) :
    file_to_num (squareFull f).outf = file_to_num (square f).outf := by
  rw [file_to_num_eq, file_to_num_eq, squareFull_decode, square_decode]

/-- C8: encoding 0 produces a zero-length store, and `square` of a
zero-length store decodes to 0. -/
theorem C8_zero :
    num_to_file 0 = [] ∧ file_to_num (square ([] : List Nat)).outf = 0 := by
  constructor
  · rw [num_to_file]
    simp
  · rw [file_to_num_square, file_to_num_eq]
    simp [decodeL_nil]

/-- C9: `square` leaves the operand store unchanged: same file, hence
same length and same block value at every index. -/
theorem C9_operand_unchanged (f : List Nat) :
    (square f).inf = f ∧ (square f).inf.length = f.length ∧
      ∀ p, readVal (square f).inf p = readVal f p := by
  have h := square_inf f
  exact ⟨h, by rw [h], fun p => by rw [h]⟩

/-- C10: on an operand store (whose blocks are masked bytes, the store
invariant), the result store of `square` holds at most `2 * size` blocks;
since a write at index `p` forces the length to exceed `p` and the length
never shrinks, every write of `square` targets an index below `2 * size`. -/
theorem C10_result_length (f : List Nat) (hf : ∀ b ∈ f, b ≤ BLOCK_MASK) :
    (square f).outf.length ≤ 2 * f.length := by
  refine square_len_le f ?_
  intro b hb
  have h := hf b hb
  have hm : BLOCK_MASK = 255 := rfl
  omega

/-- C10 witness: the two-block operand `[255, 255]` (value 65535). -/
theorem C10_result_length_witness :
    (∀ b ∈ ([255, 255] : List Nat), b ≤ BLOCK_MASK) ∧
      (square [255, 255]).outf.length ≤ 2 * ([255, 255] : List Nat).length :=
  ⟨by decide, C10_result_length [255, 255] (by decide)⟩
